import Mathlib

/-!
# Download registry (`src/cms/download_db.cpp`)

A shallow embedding of the download registry of the SDK: the record type
`DownloadItemInfo` (an attribute map with typed accessors) and the registry
`DownloadDB` (scan, merge, insert-or-replace, state update), followed by the
properties proved about them.

Conventions of the embedding.

* A `QVariantMap` is a key-ordered association list, as `QMap` is; `value`
  of an absent key is the invalid variant, as `QMap::value` returns a
  default-constructed value.
* The table `download (url text primary key, value blob)` is the list of its
  rows in scan order. The storage engine is outside the program: whether a
  statement executes is an input (`selectOk`, `writeOk`) of the operation
  that issues it.
* The constructor of `DownloadItemInfo` reads the clock; the formatted
  reading is an input (`now`). A scan constructs one record per row, so it
  takes the readings as `clock i`, the reading at the row of index `i`.
* `qSort` is the sort routine of the Qt library; it is an input of
  `pendingList`, and its contract is stated as `QSortContract`. The quick sort
  the library implements is `qSortLibrary`; it is used where the order of
  records that tie matters.
* The connection of the registry (`open`, `close`) is a state of its own,
  `DownloadDB`; whether the connection opens is an input (`openOk`).
-/

namespace cms

/-! ## Variants and attribute maps -/

/-- The kinds of `QVariant` the record fields use: no value, a string, an
integer. -/
inductive QVariant where
  | invalid
  | str (s : String)
  | int (n : Int)
deriving DecidableEq

/-- The order of `QString::operator<`: lexicographic on the characters. It is
the order `<` of `String`, in the form that evaluates on the character lists. -/
def strLess (a b : String) : Bool :=
  decide (a.toList < b.toList)

/-- The value of a run of decimal digits read after `acc`; `none` when a
character is not a digit. -/
def digitsValue : List Char → Nat → Option Nat
  | [], acc => some acc
  | c :: cs, acc =>
    if c.isDigit = true then digitsValue cs (acc * 10 + (c.toNat - 48)) else none

/-- The value of an unsigned decimal text, `none` when it is empty or holds a
character that is not a digit. -/
def unsignedValue (cs : List Char) : Option Nat :=
  if cs = [] then none else digitsValue cs 0

/-- `QString::toInt` as used by `QVariant::toInt` on a string: the value of a
decimal text with an optional sign when it fits an `int`, `0` otherwise. This
is behaviour of the Qt library; the properties below hold whatever it
returns on a string. -/
def qStringToInt (s : String) : Int :=
  let signedValue : Option Int :=
    match s.toList with
    | '-' :: cs => (unsignedValue cs).map (fun n => - (n : Int))
    | '+' :: cs => (unsignedValue cs).map (fun n => (n : Int))
    | cs => (unsignedValue cs).map (fun n => (n : Int))
  match signedValue with
  | some n => if -2147483648 ≤ n ∧ n ≤ 2147483647 then n else 0
  | none => 0

/-- `QVariant::toString`. -/
def QVariant.toString : QVariant → String
  | .invalid => ""
  | .str s => s
  | .int n => ToString.toString n

/-- `QVariant::toInt`. -/
def QVariant.toInt : QVariant → Int
  | .invalid => 0
  | .str s => qStringToInt s
  | .int n => n

/-- Lookup in a list of entries: the first entry under the key, the invalid
variant when there is none. -/
def lookupEntry : List (String × QVariant) → String → QVariant
  | [], _ => QVariant.invalid
  | (k', v) :: rest, k => if k' = k then v else lookupEntry rest k

/-- Insertion into a key-ordered list of entries: an entry under the same key
is replaced, otherwise the new entry goes to its place in key order. -/
def insertEntry (k : String) (v : QVariant) :
    List (String × QVariant) → List (String × QVariant)
  | [] => [(k, v)]
  | (k', v') :: rest =>
    if strLess k k' = true then (k, v) :: (k', v') :: rest
    else if k = k' then (k, v) :: rest
    else (k', v') :: insertEntry k v rest

/-- `QVariantMap`, that is `QMap<QString, QVariant>`; `OData` is this type. -/
structure QVariantMap where
  entries : List (String × QVariant)
deriving DecidableEq

/-- `QMap::value(key)`. -/
def QVariantMap.value (m : QVariantMap) (k : String) : QVariant :=
  lookupEntry m.entries k

/-- `QMap::insert(key, value)`. -/
def QVariantMap.insert (m : QVariantMap) (k : String) (v : QVariant) : QVariantMap :=
  ⟨insertEntry k v m.entries⟩

/-! ## Records -/

def TAG_URL : String := "url"
def TAG_PATH : String := "path"
def TAG_SIZE : String := "size"
def TAG_STATE : String := "state"
def TAG_TIMESTAMP : String := "timestamp"

/-- Modelled from the spec: the enumeration `DownloadState` is declared in the
header `onyx/cms/download_db.h`, which is not among the sources. A state is its
integer code, since `state()` is a `static_cast` of `toInt()` and `setState`
stores the code. -/
abbrev DownloadState := Int

/-- Modelled from the spec: the tag `INVALID`, the state a record is created
with (declared in the absent header). Only its being another tag than
`FINISHED` is ever used. -/
def STATE_INVALID : DownloadState := -1

/-- Modelled from the spec: the tag `FINISHED`, the state that excludes a
record from the pending list (declared in the absent header). -/
def FINISHED : DownloadState := 1

/-- A download record: `class DownloadItemInfo : public OData`. -/
structure DownloadItemInfo where
  data : QVariantMap
deriving DecidableEq

namespace DownloadItemInfo

def url (r : DownloadItemInfo) : String :=
  (r.data.value TAG_URL).toString

def setUrl (r : DownloadItemInfo) (url : String) : DownloadItemInfo :=
  ⟨r.data.insert TAG_URL (QVariant.str url)⟩

def path (r : DownloadItemInfo) : String :=
  (r.data.value TAG_PATH).toString

def setPath (r : DownloadItemInfo) (path : String) : DownloadItemInfo :=
  ⟨r.data.insert TAG_PATH (QVariant.str path)⟩

def size (r : DownloadItemInfo) : Int :=
  (r.data.value TAG_SIZE).toInt

def setSize (r : DownloadItemInfo) (size : Int) : DownloadItemInfo :=
  ⟨r.data.insert TAG_SIZE (QVariant.int size)⟩

def state (r : DownloadItemInfo) : DownloadState :=
  (r.data.value TAG_STATE).toInt

def setState (r : DownloadItemInfo) (state : DownloadState) : DownloadItemInfo :=
  ⟨r.data.insert TAG_STATE (QVariant.int state)⟩

def timeStamp (r : DownloadItemInfo) : String :=
  (r.data.value TAG_TIMESTAMP).toString

def setTimeStamp (r : DownloadItemInfo) (timeStamp : String) : DownloadItemInfo :=
  ⟨r.data.insert TAG_TIMESTAMP (QVariant.str timeStamp)⟩

/-- The constructor `DownloadItemInfo(const QVariantMap & vm)`; `now` is
`QDateTime::currentDateTime().toString(dateFormat())` at the call. -/
def ofMap (now : String) (vm : QVariantMap) : DownloadItemInfo :=
  ((DownloadItemInfo.mk vm).setState STATE_INVALID).setTimeStamp now

/-- The member `operator ==`. -/
def opEq (left right : DownloadItemInfo) : Bool :=
  decide (left.url = right.url)

end DownloadItemInfo

/-- `DownloadInfoList`, a `QVector<DownloadItemInfo>`. -/
abbrev DownloadInfoList := List DownloadItemInfo

/-- `QVector::contains`: some element compares equal to the item. -/
def listContains (list : DownloadInfoList) (item : DownloadItemInfo) : Bool :=
  list.any (fun x => x.opEq item)

/-- Modelled from the spec: the comparator `GreaterByTimestamp` is declared in
the absent header `onyx/cms/download_db.h`; by the spec it orders records by
their timestamps compared as strings, the more recent first. It is the
less-than of `qSort`: `a` goes before `b` when the timestamp of `a` is the
greater. -/
def GreaterByTimestamp (a b : DownloadItemInfo) : Bool :=
  strLess b.timeStamp a.timeStamp

/-! ## The table and the registry operations -/

/-- A row of `download (url text primary key, value blob)`. -/
structure Row where
  url : String
  value : QVariantMap
deriving DecidableEq

/-- The table, as the list of its rows in scan order. -/
abbrev Table := List Row

/-- The type of the library routine `qSort(begin, end, lessThan)`. -/
abbrev QSort := (DownloadItemInfo → DownloadItemInfo → Bool) → DownloadInfoList → DownloadInfoList

/-- The body of `while (query.next())` in `pendingList`, at the row of index
`i`: the list after the row has been handled. -/
def scanStep (clock : Nat → String) (force_all : Bool) (i : Nat) (row : Row)
    (list : DownloadInfoList) : DownloadInfoList :=
  let item := DownloadItemInfo.ofMap (clock i) row.value
  if item.state ≠ FINISHED ∨ force_all = true then
    if ¬ listContains list item = true then list ++ [item] else list
  else list

/-- The loop `while (query.next())` of `pendingList` over the rows from index
`i` on. -/
def scanRows (clock : Nat → String) (force_all : Bool) :
    Nat → List Row → DownloadInfoList → DownloadInfoList
  | _, [], list => list
  | i, row :: rest, list =>
    scanRows clock force_all (i + 1) rest (scanStep clock force_all i row list)

/-- The loop `foreach(DownloadItemInfo i, input)` of `pendingList`. -/
def mergeInput : DownloadInfoList → DownloadInfoList → DownloadInfoList
  | [], list => list
  | i :: rest, list =>
    mergeInput rest (if ¬ listContains list i = true then list ++ [i] else list)

/-- The records a scan constructs from the rows from index `i` on, one per
row, each by the constructor at the clock reading of its row. -/
def readRows (clock : Nat → String) : Nat → List Row → DownloadInfoList
  | _, [] => []
  | i, row :: rest => DownloadItemInfo.ofMap (clock i) row.value :: readRows clock (i + 1) rest

/-- `DownloadDB::pendingList(input, force_all, sort)`. -/
def pendingList (qSort : QSort) (selectOk : Bool) (clock : Nat → String) (table : Table)
    (input : DownloadInfoList) (force_all : Bool) (sort : Bool) : DownloadInfoList :=
  if ¬ selectOk = true then []
  else
    let list := mergeInput input (scanRows clock force_all 0 table [])
    if sort = true then qSort GreaterByTimestamp list else list

/-- `DownloadDB::list()`. -/
def list (qSort : QSort) (selectOk : Bool) (clock : Nat → String) (table : Table) :
    DownloadInfoList :=
  pendingList qSort selectOk clock table [] true true

/-- The statement `INSERT OR REPLACE into download (url, value) values(?, ?)`
on a table whose primary key is `url`: the rows under the key are deleted and
the new row is inserted. -/
def insertOrReplace (table : Table) (url : String) (value : QVariantMap) : Table :=
  table.filter (fun row => ¬ row.url = url) ++ [⟨url, value⟩]

/-- `DownloadDB::update(item)`: the returned flag and the table afterwards. -/
def update (writeOk : Bool) (table : Table) (item : DownloadItemInfo) : Bool × Table :=
  if writeOk = true then (true, insertOrReplace table item.url item.data)
  else (false, table)

/-- The loop `while (query.next())` of `updateState` over the rows still to
scan; `table` is the whole table, which the write goes to. -/
def updateStateLoop (writeOk : Bool) (now : String) (table : Table) (myUrl : String)
    (state : DownloadState) : List Row → Bool × Table
  | [] => (false, table)
  | row :: rest =>
    if row.url = myUrl then
      update writeOk table (((DownloadItemInfo.ofMap now row.value).setUrl myUrl).setState state)
    else updateStateLoop writeOk now table myUrl state rest

/-- `DownloadDB::updateState(myUrl, state)`: the returned flag and the table
afterwards. -/
def updateState (selectOk writeOk : Bool) (now : String) (table : Table) (myUrl : String)
    (state : DownloadState) : Bool × Table :=
  if ¬ selectOk = true then (false, table)
  else updateStateLoop writeOk now table myUrl state table

/-! ## The contract of `qSort` -/

/-- A strict weak ordering, what `qSort` asks of its less-than. -/
def IsStrictWeak (lt : DownloadItemInfo → DownloadItemInfo → Bool) : Prop :=
  (∀ a, lt a a = false) ∧
  (∀ a b c, lt a b = true → lt b c = true → lt a c = true) ∧
  (∀ a b c, lt a b = false → lt b c = false → lt a c = false)

/-- The contract of the library routine `qSort`: under a strict weak ordering
the output is a rearrangement of the input in which no element is less than
one before it. -/
def QSortContract (qSort : QSort) : Prop :=
  ∀ lt, IsStrictWeak lt → ∀ l,
    (qSort lt l).Perm l ∧ (qSort lt l).Pairwise (fun a b => lt b a = false)

/-- Insertion of one element by a less-than, before the first element it is
less than. -/
def insertByLess (lt : DownloadItemInfo → DownloadItemInfo → Bool) (a : DownloadItemInfo) :
    DownloadInfoList → DownloadInfoList
  | [] => [a]
  | b :: l => if lt a b = true then a :: b :: l else b :: insertByLess lt a l

/-- An insertion sort, one routine that meets `QSortContract`. -/
def insertionSort (lt : DownloadItemInfo → DownloadItemInfo → Bool) :
    DownloadInfoList → DownloadInfoList
  | [] => []
  | a :: l => insertByLess lt a (insertionSort lt l)

/-! ## Reference definitions of the merge and of the stable sort -/

/-- First occurrence wins: the records of a list whose url is neither in `seen`
nor the url of a record before them in the list, in the order of the list. -/
def dedupByUrlFrom : List String → DownloadInfoList → DownloadInfoList
  | _, [] => []
  | seen, x :: rest =>
    if x.url ∈ seen then dedupByUrlFrom seen rest
    else x :: dedupByUrlFrom (x.url :: seen) rest

/-- The first-occurrence-wins deduplication by url of a list. -/
def dedupByUrl (l : DownloadInfoList) : DownloadInfoList :=
  dedupByUrlFrom [] l

/-- The stored records in scan order, each deserialized from the value of its
row with the fields the row stores, the state and the timestamp among them. -/
def storedRecords (table : Table) : DownloadInfoList :=
  table.map (fun row => DownloadItemInfo.mk row.value)

/-- The merge as the spec words it: the stored records whose state is not
`FINISHED`, or all of them when `includeFinished` is set, in scan order, then
the external list in its order, the whole deduplicated by url, first
occurrence winning. The filter is applied to the stored records only. -/
def mergeReference (table : Table) (externalList : DownloadInfoList)
    (includeFinished : Bool) : DownloadInfoList :=
  dedupByUrl
    ((storedRecords table).filter
        (fun x => decide (x.state ≠ FINISHED) || includeFinished) ++ externalList)

/-- Insertion of one element by a less-than, before the first element that is
not less than it: after the elements it ties with that are already there
before such an element, and before those it ties with otherwise. -/
def stableInsert (lt : DownloadItemInfo → DownloadItemInfo → Bool) (a : DownloadItemInfo) :
    DownloadInfoList → DownloadInfoList
  | [] => [a]
  | b :: l => if lt b a = true then b :: stableInsert lt a l else a :: b :: l

/-- The stable sort by a less-than: elements that tie keep their order. -/
def stableSort (lt : DownloadItemInfo → DownloadItemInfo → Bool) :
    DownloadInfoList → DownloadInfoList
  | [] => []
  | a :: l => stableInsert lt a (stableSort lt l)

/-! ## The quick sort of the library -/

/-- The item at an index of a vector. -/
def itemAt (l : DownloadInfoList) (i : Nat) : DownloadItemInfo :=
  l.getD i ⟨⟨[]⟩⟩

/-- `qSwap` of the items at two indices. -/
def swapAt (l : DownloadInfoList) (i j : Nat) : DownloadInfoList :=
  (l.set i (itemAt l j)).set j (itemAt l i)

/-- The loop `while (low < high && lessThan(*low, *end)) ++low;` of
`qSortHelper`: the value of `low` after it. The first argument bounds the
number of turns. -/
def advanceLow (lt : DownloadItemInfo → DownloadItemInfo → Bool) (l : DownloadInfoList)
    (last : Nat) : Nat → Nat → Nat → Nat
  | 0, low, _ => low
  | fuel + 1, low, high =>
    if low < high ∧ lt (itemAt l low) (itemAt l last) = true
    then advanceLow lt l last fuel (low + 1) high else low

/-- The loop `while (high > low && lessThan(*end, *high)) --high;` of
`qSortHelper`: the value of `high` after it. -/
def retreatHigh (lt : DownloadItemInfo → DownloadItemInfo → Bool) (l : DownloadInfoList)
    (last : Nat) : Nat → Nat → Nat → Nat
  | 0, _, high => high
  | fuel + 1, low, high =>
    if high > low ∧ lt (itemAt l last) (itemAt l high) = true
    then retreatHigh lt l last fuel low (high - 1) else high

/-- The loop `while (low < high)` of `qSortHelper`, with the pivot at index
`last`: the vector and the value of `low` after it. -/
def partitionLoop (lt : DownloadItemInfo → DownloadItemInfo → Bool) (last : Nat) :
    Nat → DownloadInfoList → Nat → Nat → DownloadInfoList × Nat
  | 0, l, low, _ => (l, low)
  | fuel + 1, l, low, high =>
    if low < high then
      let low1 := advanceLow lt l last (high - low) low high
      let high1 := retreatHigh lt l last (high - low1) low1 high
      if low1 < high1 then partitionLoop lt last fuel (swapAt l low1 high1) (low1 + 1) (high1 - 1)
      else (l, low1)
    else (l, low)

/-- The routine `qSortHelper(start, end, t, lessThan)` of the Qt 4 library
(`QtCore/qalgorithms.h`), on the items of indices `start` to `stop - 1` of a
vector. The library is not among the sources; this is its quick sort, median
of three moved to the end, as the library has it. The first argument bounds the
depth of the recursion. -/
def qSortHelper (lt : DownloadItemInfo → DownloadItemInfo → Bool) :
    Nat → Nat → Nat → DownloadInfoList → DownloadInfoList
  | 0, _, _, l => l
  | fuel + 1, start, stop, l =>
    let span := stop - start
    if span < 2 then l
    else
      let last := stop - 1
      let pivot := start + span / 2
      let l1 := if lt (itemAt l last) (itemAt l start) = true then swapAt l last start else l
      if span = 2 then l1
      else
        let l2 := if lt (itemAt l1 pivot) (itemAt l1 start) = true then swapAt l1 pivot start else l1
        let l3 := if lt (itemAt l2 last) (itemAt l2 pivot) = true then swapAt l2 last pivot else l2
        if span = 3 then l3
        else
          let l4 := swapAt l3 pivot last
          let parted := partitionLoop lt last span l4 start (last - 1)
          let low := if lt (itemAt parted.1 parted.2) (itemAt parted.1 last) = true
            then parted.2 + 1 else parted.2
          let l5 := swapAt parted.1 last low
          qSortHelper lt fuel (low + 1) stop (qSortHelper lt fuel start low l5)

/-- The routine `qSort(begin, end, lessThan)` of the Qt 4 library on a whole
vector. -/
def qSortLibrary (lt : DownloadItemInfo → DownloadItemInfo → Bool) (l : DownloadInfoList) :
    DownloadInfoList :=
  qSortHelper lt l.length 0 l.length l

/-! ## The connection of the registry -/

/-- The connection handle `QSqlDatabase`, as far as the registry uses it. -/
structure QSqlDatabase where
  connectionName : String
  databaseName : String
  isOpen : Bool
deriving DecidableEq

/-- The registry object `DownloadDB`: its members `database_name_` and
`database_` (a scoped pointer, `none` when null), and the names of the
connections the process has registered (`QSqlDatabase::addDatabase`,
`QSqlDatabase::removeDatabase`). -/
structure DownloadDB where
  database_name_ : String
  database_ : Option QSqlDatabase
  connections : List String
deriving DecidableEq

/-- `DownloadDB::open()`: the returned flag and the registry afterwards.
`openOk` is whether `database_->open()` succeeds, `home` the home directory.
The creation of the table by `makeSureTableExist` is not part of this state. -/
def DownloadDB.open (openOk : Bool) (home : String) (d : DownloadDB) : Bool × DownloadDB :=
  let handle : QSqlDatabase :=
    match d.database_ with
    | some db => db
    | none => ⟨d.database_name_, "", false⟩
  let connections :=
    match d.database_ with
    | some _ => d.connections
    | none => d.database_name_ :: d.connections
  if ¬ handle.isOpen = true then
    let named : QSqlDatabase := { handle with databaseName := home ++ "/" ++ d.database_name_ }
    if ¬ openOk = true then
      (false, { d with database_ := some named, connections := connections })
    else
      (true, { d with database_ := some { named with isOpen := true }, connections := connections })
  else (true, { d with database_ := some handle, connections := connections })

/-- `DownloadDB::close()`: the returned flag and the registry afterwards. -/
def DownloadDB.close (d : DownloadDB) : Bool × DownloadDB :=
  match d.database_ with
  | some _ =>
    (true, { d with database_ := none, connections := d.connections.erase d.database_name_ })
  | none => (false, d)

/-- The constructor `DownloadDB(db_name)`, which calls `open()`. -/
def DownloadDB.create (openOk : Bool) (home : String) (db_name : String)
    (connections : List String) : DownloadDB :=
  (DownloadDB.open openOk home ⟨db_name, none, connections⟩).2

/-! ## Concrete records and tables -/

/-- The record with the five fields set by the setters, from the empty map. -/
def recordOf (url path : String) (size : Int) (state : DownloadState) (timeStamp : String) :
    DownloadItemInfo :=
  (((((DownloadItemInfo.mk ⟨[]⟩).setUrl url).setPath path).setSize size).setState
    state).setTimeStamp timeStamp

/-- A finished download, as its owner submits it. -/
def finishedRecord : DownloadItemInfo :=
  recordOf "u" "/p" 7 FINISHED "2020-01-01"

/-- A table of one row, a download under way (state code `0`). -/
def tableOne : Table :=
  [⟨"u", (recordOf "u" "/p" 7 0 "2020-01-01").data⟩]

/-- A table of two rows of distinct keys whose stored urls are both `"u1"`:
the first row is stored under another key than its url. -/
def tableCollision : Table :=
  [⟨"k", (recordOf "u1" "/a" 1 0 "2020-01-01").data⟩,
   ⟨"u1", (recordOf "u1" "/b" 2 0 "2020-01-02").data⟩]

/-- A table of two rows, each under its url, the first one finished. -/
def tableTwo : Table :=
  [⟨"u2", (recordOf "u2" "/c" 3 FINISHED "2020-01-03").data⟩,
   ⟨"u1", (recordOf "u1" "/b" 2 0 "2020-01-02").data⟩]

/-- An external list of two records, the second the more recent. -/
def externalTwo : DownloadInfoList :=
  [recordOf "u3" "/x" 9 0 "2019-05-05", recordOf "u4" "/y" 8 0 "2022-05-05"]

/-- Clock readings that advance with the row index. -/
def clockByRow (i : Nat) : String :=
  if i = 0 then "2021-03-02" else "2021-03-03"

/-- A table of four rows, each under its url. -/
def tableFour : Table :=
  [⟨"a", (recordOf "a" "/a" 1 0 "2020-01-01").data⟩,
   ⟨"b", (recordOf "b" "/b" 2 0 "2020-01-02").data⟩,
   ⟨"c", (recordOf "c" "/c" 3 0 "2020-01-03").data⟩,
   ⟨"d", (recordOf "d" "/d" 4 0 "2020-01-04").data⟩]

/-- A clock that reads the same at every row: a scan within one unit of the
date format. -/
def clockSame (_ : Nat) : String :=
  "2021-03-02"

/-- An external list with a repeated url and a finished record. -/
def externalRepeated : DownloadInfoList :=
  [recordOf "u3" "/x" 9 FINISHED "2019-05-05", recordOf "u1" "/y" 8 0 "2022-05-05",
   recordOf "u3" "/z" 7 0 "2022-06-06"]

/-- A table of one row whose stored url is not its key. -/
def tableMismatch : Table :=
  [⟨"u", (recordOf "other" "/p" 7 0 "2020-01-01").data⟩]

/-! ## Attribute maps: lookup after insertion -/

theorem lookupEntry_insertEntry (k : String) (v : QVariant) (l : List (String × QVariant))
    (k' : String) :
    lookupEntry (insertEntry k v l) k' = if k = k' then v else lookupEntry l k' := by
  induction l with
  | nil => simp [insertEntry, lookupEntry]
  | cons p rest ih =>
    obtain ⟨k₀, v₀⟩ := p
    simp only [insertEntry]
    by_cases h1 : strLess k k₀ = true
    · simp [h1, lookupEntry]
    · by_cases h2 : k = k₀
      · subst h2
        rw [if_neg h1, if_pos rfl]
        simp only [lookupEntry]
        by_cases h3 : k = k' <;> simp [h3]
      · simp only [h1, h2, if_false, lookupEntry, ih]
        by_cases h3 : k₀ = k'
        · subst h3
          simp [h2]
        · simp [h3]

theorem value_insert (m : QVariantMap) (k : String) (v : QVariant) (k' : String) :
    (m.insert k v).value k' = if k = k' then v else m.value k' := by
  simp [QVariantMap.insert, QVariantMap.value, lookupEntry_insertEntry]

theorem value_insert_same (m : QVariantMap) (k : String) (v : QVariant) :
    (m.insert k v).value k = v := by
  simp [value_insert]

theorem value_insert_other (m : QVariantMap) (k : String) (v : QVariant) (k' : String)
    (h : k ≠ k') : (m.insert k v).value k' = m.value k' := by
  simp [value_insert, h]

/-! ## Records: the constructor and the accessors -/

namespace DownloadItemInfo

theorem url_ofMap (now : String) (vm : QVariantMap) :
    (ofMap now vm).url = (vm.value TAG_URL).toString := by
  simp [ofMap, url, setState, setTimeStamp, value_insert, TAG_URL, TAG_STATE, TAG_TIMESTAMP]

theorem path_ofMap (now : String) (vm : QVariantMap) :
    (ofMap now vm).path = (vm.value TAG_PATH).toString := by
  simp [ofMap, path, setState, setTimeStamp, value_insert, TAG_PATH, TAG_STATE, TAG_TIMESTAMP]

theorem size_ofMap (now : String) (vm : QVariantMap) :
    (ofMap now vm).size = (vm.value TAG_SIZE).toInt := by
  simp [ofMap, size, setState, setTimeStamp, value_insert, TAG_SIZE, TAG_STATE, TAG_TIMESTAMP]

theorem state_ofMap (now : String) (vm : QVariantMap) :
    (ofMap now vm).state = STATE_INVALID := by
  simp [ofMap, state, setState, setTimeStamp, value_insert, TAG_STATE, TAG_TIMESTAMP,
    QVariant.toInt]

theorem timeStamp_ofMap (now : String) (vm : QVariantMap) :
    (ofMap now vm).timeStamp = now := by
  simp [ofMap, timeStamp, setTimeStamp, value_insert, QVariant.toString]

theorem state_ofMap_ne_finished (now : String) (vm : QVariantMap) :
    (ofMap now vm).state ≠ FINISHED := by
  rw [state_ofMap]
  decide

theorem opEq_iff (a b : DownloadItemInfo) : a.opEq b = true ↔ a.url = b.url := by
  simp [opEq]

end DownloadItemInfo

/-- What a read gives back of a record written: the url, path and size of the
stored map, the state `STATE_INVALID` and the timestamp of the clock at the
read, whatever state and timestamp the map stores. -/
theorem read_back_fields (now : String) (r : DownloadItemInfo) :
    (DownloadItemInfo.ofMap now r.data).url = r.url ∧
      (DownloadItemInfo.ofMap now r.data).path = r.path ∧
      (DownloadItemInfo.ofMap now r.data).size = r.size ∧
      (DownloadItemInfo.ofMap now r.data).state = STATE_INVALID ∧
      (DownloadItemInfo.ofMap now r.data).timeStamp = now :=
  ⟨DownloadItemInfo.url_ofMap now r.data, DownloadItemInfo.path_ofMap now r.data,
    DownloadItemInfo.size_ofMap now r.data, DownloadItemInfo.state_ofMap now r.data,
    DownloadItemInfo.timeStamp_ofMap now r.data⟩

/-! ## `update` and `updateState` -/

/-- The record `updateState` writes when it finds the row: constructed from the
stored map, then `setUrl`, then `setState`. -/
theorem updated_item_fields (now : String) (vm : QVariantMap) (u : String) (s : DownloadState) :
    let item := ((DownloadItemInfo.ofMap now vm).setUrl u).setState s
    item.data.value TAG_URL = QVariant.str u ∧ item.data.value TAG_STATE = QVariant.int s ∧
      item.url = u ∧ item.state = s := by
  simp [DownloadItemInfo.ofMap, DownloadItemInfo.setUrl, DownloadItemInfo.setState,
    DownloadItemInfo.setTimeStamp, DownloadItemInfo.url, DownloadItemInfo.state, value_insert,
    TAG_URL, TAG_STATE, TAG_TIMESTAMP, QVariant.toString, QVariant.toInt]

theorem filter_key_insertOrReplace (t : Table) (u : String) (m : QVariantMap) :
    (insertOrReplace t u m).filter (fun row => decide (row.url = u)) = [⟨u, m⟩] := by
  simp only [insertOrReplace, List.filter_append, List.filter_filter]
  have h : List.filter (fun a => decide (a.url = u) && decide ¬a.url = u) t = [] := by
    rw [List.filter_eq_nil_iff]
    intro a _
    by_cases h : a.url = u <;> simp [h]
  rw [h]
  simp

theorem filter_other_insertOrReplace (t : Table) (u : String) (m : QVariantMap) :
    (insertOrReplace t u m).filter (fun row => decide (row.url ≠ u)) =
      t.filter (fun row => decide (row.url ≠ u)) := by
  simp [insertOrReplace, List.filter_append, List.filter_filter]

theorem nodup_keys_insertOrReplace (t : Table) (u : String) (m : QVariantMap)
    (h : (t.map Row.url).Nodup) : ((insertOrReplace t u m).map Row.url).Nodup := by
  simp only [insertOrReplace, List.map_append, List.map_cons, List.map_nil]
  rw [List.nodup_append]
  refine ⟨?_, List.nodup_singleton _, ?_⟩
  · exact (h.sublist ((List.filter_sublist t).map Row.url))
  · intro k hk hk'
    simp only [List.mem_singleton] at hk'
    subst hk'
    simp only [List.mem_map, List.mem_filter, decide_eq_true_eq] at hk
    obtain ⟨a, ⟨_, h1⟩, h2⟩ := hk
    exact h1 h2

theorem updateStateLoop_true (writeOk : Bool) (now : String) (t : Table) (u : String)
    (s : DownloadState) (rows : List Row)
    (h : (updateStateLoop writeOk now t u s rows).1 = true) :
    writeOk = true ∧ ∃ row ∈ rows, row.url = u ∧
      (updateStateLoop writeOk now t u s rows).2 =
        insertOrReplace t u (((DownloadItemInfo.ofMap now row.value).setUrl u).setState s).data := by
  induction rows with
  | nil => simp [updateStateLoop] at h
  | cons row rest ih =>
    by_cases hk : row.url = u
    · simp only [updateStateLoop, hk, if_true] at h ⊢
      cases writeOk with
      | false => simp [update] at h
      | true =>
        refine ⟨rfl, row, List.mem_cons_self _ _, hk, ?_⟩
        simp [update, (updated_item_fields now row.value u s).2.2.1]
    · simp only [updateStateLoop, hk, if_false] at h ⊢
      obtain ⟨h1, row', hmem, h2, h3⟩ := ih h
      exact ⟨h1, row', List.mem_cons_of_mem _ hmem, h2, h3⟩

theorem updateStateLoop_miss (writeOk : Bool) (now : String) (t : Table) (u : String)
    (s : DownloadState) (rows : List Row) (h : ∀ row ∈ rows, row.url ≠ u) :
    updateStateLoop writeOk now t u s rows = (false, t) := by
  induction rows with
  | nil => rfl
  | cons row rest ih =>
    have hk : row.url ≠ u := h row (List.mem_cons_self _ _)
    simp only [updateStateLoop, hk, if_false]
    exact ih (fun r hr => h r (List.mem_cons_of_mem _ hr))

/-! ## The merge loops of `pendingList` -/

theorem listContains_iff (l : DownloadInfoList) (x : DownloadItemInfo) :
    listContains l x = true ↔ ∃ y ∈ l, y.url = x.url := by
  simp [listContains, DownloadItemInfo.opEq]

theorem listContains_iff_mem_urls (l : DownloadInfoList) (x : DownloadItemInfo) :
    listContains l x = true ↔ x.url ∈ l.map DownloadItemInfo.url := by
  simp [listContains, DownloadItemInfo.opEq]

/-- No stored record is ever seen as finished, so the scan appends a record
exactly when its url is new, whatever `force_all` is. -/
theorem scanStep_eq (clock : Nat → String) (force_all : Bool) (i : Nat) (row : Row)
    (acc : DownloadInfoList) :
    scanStep clock force_all i row acc =
      if ¬ listContains acc (DownloadItemInfo.ofMap (clock i) row.value) = true
      then acc ++ [DownloadItemInfo.ofMap (clock i) row.value] else acc := by
  simp [scanStep, DownloadItemInfo.state_ofMap_ne_finished]

theorem scanRows_eq_mergeInput (clock : Nat → String) (force_all : Bool) (rows : List Row) :
    ∀ (i : Nat) (acc : DownloadInfoList),
      scanRows clock force_all i rows acc = mergeInput (readRows clock i rows) acc := by
  induction rows with
  | nil => intro i acc; rfl
  | cons row rest ih =>
    intro i acc
    simp only [scanRows, readRows, mergeInput, scanStep_eq, ih]

theorem mergeInput_cons_new (a : DownloadItemInfo) (rest acc : DownloadInfoList)
    (hc : ¬ listContains acc a = true) :
    mergeInput (a :: rest) acc = mergeInput rest (acc ++ [a]) := by
  simp only [mergeInput]
  rw [if_pos hc]

theorem mergeInput_cons_seen (a : DownloadItemInfo) (rest acc : DownloadInfoList)
    (hc : listContains acc a = true) :
    mergeInput (a :: rest) acc = mergeInput rest acc := by
  simp only [mergeInput]
  rw [if_neg (not_not.mpr hc)]

theorem nodup_urls_snoc (a : DownloadItemInfo) (acc : DownloadInfoList)
    (h : (acc.map DownloadItemInfo.url).Nodup) (hc : ¬ listContains acc a = true) :
    ((acc ++ [a]).map DownloadItemInfo.url).Nodup := by
  simp only [List.map_append, List.map_cons, List.map_nil]
  rw [List.nodup_append]
  refine ⟨h, List.nodup_singleton _, ?_⟩
  intro k hk hk'
  simp only [List.mem_singleton] at hk'
  subst hk'
  exact hc ((listContains_iff_mem_urls acc a).2 hk)

theorem length_filter_url_le_one (u : String) (acc : DownloadInfoList)
    (h : (acc.map DownloadItemInfo.url).Nodup) :
    (acc.filter (fun x => decide (x.url = u))).length ≤ 1 := by
  induction acc with
  | nil => simp
  | cons a rest ih =>
    simp only [List.map_cons, List.nodup_cons] at h
    by_cases hu : a.url = u
    · have hnil : rest.filter (fun x => decide (x.url = u)) = [] := by
        rw [List.filter_eq_nil_iff]
        intro y hy hyu
        simp only [decide_eq_true_eq] at hyu
        exact h.1 (List.mem_map.2 ⟨y, hy, hyu.trans hu.symm⟩)
      simp [List.filter_cons, hu, hnil]
    · simpa [List.filter_cons, hu] using ih h.2

theorem mem_mergeInput (xs : DownloadInfoList) :
    ∀ (acc : DownloadInfoList) (x : DownloadItemInfo),
      x ∈ mergeInput xs acc → x ∈ acc ∨ x ∈ xs := by
  induction xs with
  | nil => intro acc x h; exact Or.inl h
  | cons a rest ih =>
    intro acc x h
    by_cases hc : listContains acc a = true
    · rw [mergeInput_cons_seen a rest acc hc] at h
      rcases ih _ x h with h1 | h1
      · exact Or.inl h1
      · exact Or.inr (List.mem_cons_of_mem _ h1)
    · rw [mergeInput_cons_new a rest acc hc] at h
      rcases ih _ x h with h1 | h1
      · rw [List.mem_append, List.mem_singleton] at h1
        rcases h1 with h2 | h2
        · exact Or.inl h2
        · exact Or.inr (h2 ▸ List.mem_cons_self _ _)
      · exact Or.inr (List.mem_cons_of_mem _ h1)

theorem mergeInput_of_nodup (xs : DownloadInfoList) :
    ∀ (acc : DownloadInfoList), ((acc ++ xs).map DownloadItemInfo.url).Nodup →
      mergeInput xs acc = acc ++ xs := by
  induction xs with
  | nil => intro acc _; simp [mergeInput]
  | cons a rest ih =>
    intro acc h
    have hc : ¬ listContains acc a = true := by
      rw [listContains_iff_mem_urls]
      intro hmem
      simp only [List.map_append, List.map_cons] at h
      rw [List.nodup_append] at h
      exact h.2.2 hmem (List.mem_cons_self _ _)
    rw [mergeInput_cons_new a rest acc hc, ih (acc ++ [a]) (by simpa using h)]
    simp

theorem nodup_urls_mergeInput (xs : DownloadInfoList) :
    ∀ (acc : DownloadInfoList), (acc.map DownloadItemInfo.url).Nodup →
      ((mergeInput xs acc).map DownloadItemInfo.url).Nodup := by
  induction xs with
  | nil => intro acc h; exact h
  | cons a rest ih =>
    intro acc h
    by_cases hc : listContains acc a = true
    · rw [mergeInput_cons_seen a rest acc hc]
      exact ih acc h
    · rw [mergeInput_cons_new a rest acc hc]
      exact ih _ (nodup_urls_snoc a acc h hc)

/-- First seen wins: among the records of one url, the merge keeps the first
of `acc ++ xs` and no other. -/
theorem filter_url_mergeInput (u : String) (xs : DownloadInfoList) :
    ∀ (acc : DownloadInfoList), (acc.map DownloadItemInfo.url).Nodup →
      (mergeInput xs acc).filter (fun x => decide (x.url = u)) =
        ((acc ++ xs).filter (fun x => decide (x.url = u))).take 1 := by
  induction xs with
  | nil =>
    intro acc h
    simp only [mergeInput, List.append_nil]
    exact (List.take_of_length_le (length_filter_url_le_one u acc h)).symm
  | cons a rest ih =>
    intro acc h
    by_cases hc : listContains acc a = true
    · rw [mergeInput_cons_seen a rest acc hc, ih acc h]
      by_cases hu : a.url = u
      · obtain ⟨y, hy, hyu⟩ := (listContains_iff acc a).1 hc
        have hne : acc.filter (fun x => decide (x.url = u)) ≠ [] := by
          intro hnil
          rw [List.filter_eq_nil_iff] at hnil
          exact hnil y hy (by simp [hyu, hu])
        obtain ⟨z, zs, hz⟩ := List.exists_cons_of_ne_nil hne
        simp [List.filter_append, hz]
      · simp [List.filter_append, List.filter_cons, hu]
    · rw [mergeInput_cons_new a rest acc hc, ih (acc ++ [a]) (nodup_urls_snoc a acc h hc)]
      simp

theorem readRows_append (clock : Nat → String) (pre : List Row) :
    ∀ (i : Nat) (post : List Row),
      readRows clock i (pre ++ post) = readRows clock i pre ++ readRows clock (i + pre.length) post := by
  induction pre with
  | nil => intro i post; simp [readRows]
  | cons row rest ih =>
    intro i post
    have hi : i + 1 + rest.length = i + (rest.length + 1) := by omega
    show _ :: readRows clock (i + 1) (rest ++ post) = _ :: _ ++ _
    rw [ih, hi]
    rfl

theorem mem_readRows (clock : Nat → String) (rows : List Row) :
    ∀ (i : Nat) (x : DownloadItemInfo), x ∈ readRows clock i rows →
      ∃ j, ∃ row ∈ rows, x = DownloadItemInfo.ofMap (clock j) row.value := by
  induction rows with
  | nil => intro i x h; simp [readRows] at h
  | cons row rest ih =>
    intro i x h
    simp only [readRows, List.mem_cons] at h
    rcases h with h | h
    · exact ⟨i, row, List.mem_cons_self _ _, h⟩
    · obtain ⟨j, r, hr, hx⟩ := ih _ x h
      exact ⟨j, r, List.mem_cons_of_mem _ hr, hx⟩

theorem map_url_readRows (clock : Nat → String) (rows : List Row) :
    ∀ (i : Nat), (readRows clock i rows).map DownloadItemInfo.url =
      rows.map (fun row => (DownloadItemInfo.mk row.value).url) := by
  induction rows with
  | nil => intro i; rfl
  | cons row rest ih =>
    intro i
    simp only [readRows, List.map_cons, ih, DownloadItemInfo.url_ofMap]
    rfl

/-! ## The comparator and the sort contract -/

theorem strLess_iff (a b : String) : strLess a b = true ↔ a < b := by
  simp [strLess, String.lt_iff_toList_lt]

theorem strLess_false_iff (a b : String) : strLess a b = false ↔ b ≤ a := by
  rw [← not_lt, ← strLess_iff]
  simp

theorem greaterByTimestamp_false_iff (a b : DownloadItemInfo) :
    GreaterByTimestamp a b = false ↔ a.timeStamp ≤ b.timeStamp := by
  simp [GreaterByTimestamp, strLess_false_iff]

/-- The comparator is a strict weak ordering, as `qSort` asks. -/
theorem greaterByTimestamp_strictWeak : IsStrictWeak GreaterByTimestamp := by
  refine ⟨?_, ?_, ?_⟩
  · intro a
    rw [greaterByTimestamp_false_iff]
  · intro a b c h1 h2
    simp only [GreaterByTimestamp, strLess_iff] at h1 h2 ⊢
    exact lt_trans h2 h1
  · intro a b c h1 h2
    rw [greaterByTimestamp_false_iff] at h1 h2 ⊢
    exact le_trans h1 h2

theorem perm_insertByLess (lt : DownloadItemInfo → DownloadItemInfo → Bool) (a : DownloadItemInfo)
    (l : DownloadInfoList) : (insertByLess lt a l).Perm (a :: l) := by
  induction l with
  | nil => exact List.Perm.refl _
  | cons b rest ih =>
    by_cases h : lt a b = true
    · simp [insertByLess, h]
    · simp only [insertByLess, h, if_false]
      exact (List.Perm.cons b ih).trans (List.Perm.swap a b rest)

theorem perm_insertionSort (lt : DownloadItemInfo → DownloadItemInfo → Bool)
    (l : DownloadInfoList) : (insertionSort lt l).Perm l := by
  induction l with
  | nil => exact List.Perm.refl _
  | cons a rest ih =>
    exact (perm_insertByLess lt a _).trans (List.Perm.cons a ih)

theorem pairwise_insertByLess (lt : DownloadItemInfo → DownloadItemInfo → Bool)
    (hlt : IsStrictWeak lt) (a : DownloadItemInfo) (l : DownloadInfoList)
    (h : l.Pairwise (fun x y => lt y x = false)) :
    (insertByLess lt a l).Pairwise (fun x y => lt y x = false) := by
  obtain ⟨hirr, htrans, hneg⟩ := hlt
  induction l with
  | nil => simp [insertByLess]
  | cons b rest ih =>
    rw [List.pairwise_cons] at h
    by_cases hab : lt a b = true
    · simp only [insertByLess, hab, if_true]
      have hba : lt b a = false := by
        by_contra hc
        have hc' : lt b a = true := by simpa using hc
        have := htrans a b a hab hc'
        rw [hirr a] at this
        exact Bool.false_ne_true this
      refine List.Pairwise.cons ?_ (List.Pairwise.cons h.1 h.2)
      intro y hy
      rcases List.mem_cons.1 hy with hy | hy
      · rw [hy]; exact hba
      · exact hneg y b a (h.1 y hy) hba
    · simp only [insertByLess, hab, if_false]
      refine List.Pairwise.cons ?_ (ih h.2)
      intro y hy
      rcases List.mem_cons.1 ((perm_insertByLess lt a rest).mem_iff.1 hy) with hy | hy
      · rw [hy]; simpa using hab
      · exact h.1 y hy

/-- The insertion sort meets the contract of `qSort`. -/
theorem insertionSort_contract : QSortContract insertionSort := by
  intro lt hlt l
  refine ⟨perm_insertionSort lt l, ?_⟩
  induction l with
  | nil => simp [insertionSort]
  | cons a rest ih => exact pairwise_insertByLess lt hlt a _ ih

/-! ## The properties of the registry -/

/-- What `pendingList` returns when the scan runs and no sort is asked: the
merge of the external list into the merge of the records read. -/
theorem pendingList_unsorted (qSort : QSort) (clock : Nat → String) (t : Table)
    (input : DownloadInfoList) (force_all : Bool) :
    pendingList qSort true clock t input force_all false =
      mergeInput input (mergeInput (readRows clock 0 t) []) := by
  simp [pendingList, scanRows_eq_mergeInput]

/-- The stored state never reaches the filter: `force_all` has no effect. -/
theorem pendingList_force_all_irrelevant (qSort : QSort) (selectOk : Bool) (clock : Nat → String)
    (t : Table) (input : DownloadInfoList) (sort : Bool) :
    pendingList qSort selectOk clock t input false sort =
      pendingList qSort selectOk clock t input true sort := by
  simp [pendingList, scanRows_eq_mergeInput]

/-- Every url a scan reads is the url of a record of the result, when the scan
runs and no sort is asked: the merge drops a record only when one of its url is
already there. -/
theorem url_listed_of_read (qSort : QSort) (clock : Nat → String) (t : Table)
    (force_all : Bool) (x : DownloadItemInfo) (hx : x ∈ readRows clock 0 t) :
    ∃ y ∈ pendingList qSort true clock t [] force_all false, y.url = x.url := by
  rw [pendingList_unsorted]
  simp only [mergeInput]
  have hfilter := filter_url_mergeInput x.url (readRows clock 0 t) [] List.nodup_nil
  rw [List.nil_append] at hfilter
  have hne : (readRows clock 0 t).filter (fun y => decide (y.url = x.url)) ≠ [] := by
    intro hnil
    rw [List.filter_eq_nil_iff] at hnil
    exact hnil x hx (by simp)
  obtain ⟨z, zs, hz⟩ := List.exists_cons_of_ne_nil hne
  rw [hz, List.take_succ_cons, List.take_zero] at hfilter
  have hmem : z ∈ (mergeInput (readRows clock 0 t) []).filter (fun y => decide (y.url = x.url)) := by
    rw [hfilter]
    exact List.mem_singleton_self z
  rw [List.mem_filter, decide_eq_true_eq] at hmem
  exact ⟨z, hmem.1, hmem.2⟩

/-- A finished row stays listed: whenever `updateState u FINISHED` returns
true, a scan that runs on the table afterwards lists a record of url `u`, with
`force_all = false`. -/
theorem finished_row_listed (qSort : QSort) (clock : Nat → String) (selectOk writeOk : Bool)
    (now : String) (t : Table) (u : String)
    (hok : (updateState selectOk writeOk now t u FINISHED).1 = true) :
    ∃ y ∈ pendingList qSort true clock (updateState selectOk writeOk now t u FINISHED).2 []
      false false, y.url = u := by
  cases selectOk with
  | false => simp [updateState] at hok
  | true =>
    simp only [updateState, not_true_eq_false, if_false] at hok ⊢
    obtain ⟨_, row, _, _, htab⟩ := updateStateLoop_true writeOk now t u FINISHED t hok
    rw [htab]
    have hread : DownloadItemInfo.ofMap
        (clock (0 + (t.filter (fun r => decide (¬ r.url = u))).length))
        (((DownloadItemInfo.ofMap now row.value).setUrl u).setState FINISHED).data ∈
        readRows clock 0 (insertOrReplace t u
          (((DownloadItemInfo.ofMap now row.value).setUrl u).setState FINISHED).data) := by
      rw [insertOrReplace, readRows_append]
      simp [readRows]
    obtain ⟨y, hy, hyu⟩ := url_listed_of_read qSort clock _ false _ hread
    refine ⟨y, hy, ?_⟩
    rw [hyu, DownloadItemInfo.url_ofMap]
    exact (updated_item_fields now row.value u FINISHED).2.2.1

/-- C1, on the code: with one row stored under `"u"`, `updateState "u" FINISHED`
returns true and the stored state is then `FINISHED`; yet `pendingList` with an
empty external list and `force_all = false` still returns the record of url
`"u"`, sorted or not, its state read as `STATE_INVALID`: the constructor has
reset the state before the filter looks at it. -/
theorem finished_row_still_pending :
    (updateState true true "2021-03-01" tableOne "u" FINISHED).1 = true ∧
      (updateState true true "2021-03-01" tableOne "u" FINISHED).2.map
          (fun row => (row.url, (DownloadItemInfo.mk row.value).state)) = [("u", FINISHED)] ∧
      (pendingList insertionSort true clockByRow
          (updateState true true "2021-03-01" tableOne "u" FINISHED).2 [] false false).map
          (fun x => (x.url, x.state)) = [("u", STATE_INVALID)] ∧
      (pendingList insertionSort true clockByRow
          (updateState true true "2021-03-01" tableOne "u" FINISHED).2 [] false true).map
          (fun x => (x.url, x.state)) = [("u", STATE_INVALID)] := by
  decide

/-- C2, on the code: after `update` of a finished record on the empty table,
the scan reads back one record with the url, path and size of the record
written, but with the state `STATE_INVALID` and the timestamp of the clock at
the read, not the state and timestamp written. -/
theorem update_then_scan_resets_state_and_timestamp :
    (update true [] finishedRecord).1 = true ∧
      (finishedRecord.url, finishedRecord.path, finishedRecord.size, finishedRecord.state,
          finishedRecord.timeStamp) = ("u", "/p", 7, FINISHED, "2020-01-01") ∧
      (readRows clockByRow 0 (update true [] finishedRecord).2).map
          (fun x => (x.url, x.path, x.size, x.state, x.timeStamp)) =
        [("u", "/p", 7, STATE_INVALID, "2021-03-02")] ∧
      (pendingList insertionSort true clockByRow (update true [] finishedRecord).2 [] true false).map
          (fun x => (x.url, x.path, x.size, x.state, x.timeStamp)) =
        [("u", "/p", 7, STATE_INVALID, "2021-03-02")] := by
  decide

/-- C4. On a table whose keys are pairwise distinct and whose stored urls are
the row keys, when the scan runs `pendingList [] true false` returns the records
read from the rows, one per row in scan order and nothing else: its urls are
the keys of the table, in scan order, whatever states the rows store. -/
theorem pendingList_all_unsorted (qSort : QSort) (clock : Nat → String) (t : Table)
    (hkeys : (t.map Row.url).Nodup)
    (hurl : ∀ row ∈ t, (DownloadItemInfo.mk row.value).url = row.url) :
    pendingList qSort true clock t [] true false = readRows clock 0 t ∧
      (pendingList qSort true clock t [] true false).map DownloadItemInfo.url = t.map Row.url ∧
      (pendingList qSort true clock t [] true false).length = t.length := by
  have hmap : (readRows clock 0 t).map DownloadItemInfo.url = t.map Row.url := by
    rw [map_url_readRows]
    exact List.map_congr_left hurl
  have heq : pendingList qSort true clock t [] true false = readRows clock 0 t := by
    rw [pendingList_unsorted]
    simp only [mergeInput]
    rw [mergeInput_of_nodup _ [] (by simpa [hmap] using hkeys)]
    rfl
  refine ⟨heq, by rw [heq, hmap], ?_⟩
  have hlen := congrArg List.length (heq ▸ hmap)
  simpa using hlen

theorem pendingList_all_unsorted_witness :
    (tableTwo.map Row.url).Nodup ∧
      (∀ row ∈ tableTwo, (DownloadItemInfo.mk row.value).url = row.url) ∧
      (pendingList insertionSort true clockByRow tableTwo [] true false =
          readRows clockByRow 0 tableTwo ∧
        (pendingList insertionSort true clockByRow tableTwo [] true false).map
            DownloadItemInfo.url = tableTwo.map Row.url ∧
        (pendingList insertionSort true clockByRow tableTwo [] true false).length =
          tableTwo.length) :=
  ⟨by decide, by decide,
    pendingList_all_unsorted insertionSort clockByRow tableTwo (by decide) (by decide)⟩

/-- C5. Whatever the table holds and whether or not the scan runs, no record of
`pendingList [] false false` has `state() = FINISHED`. -/
theorem pendingList_no_finished (qSort : QSort) (selectOk : Bool) (clock : Nat → String)
    (t : Table) (x : DownloadItemInfo)
    (hx : x ∈ pendingList qSort selectOk clock t [] false false) : x.state ≠ FINISHED := by
  cases selectOk with
  | false => simp [pendingList] at hx
  | true =>
    rw [pendingList_unsorted] at hx
    simp only [mergeInput] at hx
    rcases mem_mergeInput _ _ x hx with h | h
    · simp at h
    · obtain ⟨j, row, _, hrow⟩ := mem_readRows clock t 0 x h
      rw [hrow]
      exact DownloadItemInfo.state_ofMap_ne_finished _ _

theorem pendingList_no_finished_witness :
    DownloadItemInfo.ofMap (clockByRow 0) (recordOf "u2" "/c" 3 FINISHED "2020-01-03").data ∈
        pendingList insertionSort true clockByRow tableTwo [] false false ∧
      (DownloadItemInfo.ofMap (clockByRow 0)
        (recordOf "u2" "/c" 3 FINISHED "2020-01-03").data).state ≠ FINISHED :=
  ⟨by decide, pendingList_no_finished insertionSort true clockByRow tableTwo _ (by decide)⟩

/-- C6. With a `qSort` that meets its contract, the result of
`pendingList external true true` is ordered by timestamp descending: of two
adjacent records `a` then `b`, the timestamp of `b` is at most that of `a` in
the order of strings the comparator uses. -/
theorem pendingList_sorted (qSort : QSort) (hq : QSortContract qSort) (selectOk : Bool)
    (clock : Nat → String) (t : Table) (input : DownloadInfoList) :
    List.Chain' (fun a b => b.timeStamp ≤ a.timeStamp)
      (pendingList qSort selectOk clock t input true true) := by
  cases selectOk with
  | false => simp [pendingList]
  | true =>
    have hsorted := (hq GreaterByTimestamp greaterByTimestamp_strictWeak
      (mergeInput input (scanRows clock true 0 t []))).2
    have hpair : List.Pairwise (fun a b => b.timeStamp ≤ a.timeStamp)
        (qSort GreaterByTimestamp (mergeInput input (scanRows clock true 0 t []))) :=
      hsorted.imp (fun h => (greaterByTimestamp_false_iff _ _).1 h)
    simpa [pendingList] using hpair.chain'

theorem pendingList_sorted_witness :
    QSortContract insertionSort ∧
      (pendingList insertionSort true clockByRow tableTwo externalTwo true true).map
          DownloadItemInfo.timeStamp = ["2022-05-05", "2021-03-03", "2021-03-02", "2019-05-05"] ∧
      List.Chain' (fun a b => b.timeStamp ≤ a.timeStamp)
        (pendingList insertionSort true clockByRow tableTwo externalTwo true true) :=
  ⟨insertionSort_contract, by decide,
    pendingList_sorted insertionSort insertionSort_contract true clockByRow tableTwo externalTwo⟩

/-- C7. Insert-or-replace: on a table with at most one row per key, when
`update r` returns true the table afterwards has exactly one row under the key
`r.url`, holding the attribute map of `r`; the rows under the other keys are
the same, in the same order; and there is still at most one row per key. -/
theorem update_insert_or_replace (writeOk : Bool) (t : Table) (r : DownloadItemInfo)
    (hkeys : (t.map Row.url).Nodup) (hok : (update writeOk t r).1 = true) :
    (update writeOk t r).2.filter (fun row => decide (row.url = r.url)) = [⟨r.url, r.data⟩] ∧
      (update writeOk t r).2.filter (fun row => decide (row.url ≠ r.url)) =
        t.filter (fun row => decide (row.url ≠ r.url)) ∧
      ((update writeOk t r).2.map Row.url).Nodup := by
  cases writeOk with
  | false => simp [update] at hok
  | true =>
    simp only [update, if_true]
    exact ⟨filter_key_insertOrReplace t r.url r.data, filter_other_insertOrReplace t r.url r.data,
      nodup_keys_insertOrReplace t r.url r.data hkeys⟩

theorem update_insert_or_replace_witness :
    (tableTwo.map Row.url).Nodup ∧ (update true tableTwo finishedRecord).1 = true ∧
      (update true tableTwo finishedRecord).2.filter
          (fun row => decide (row.url = finishedRecord.url)) =
        [⟨finishedRecord.url, finishedRecord.data⟩] ∧
      (update true tableTwo finishedRecord).2.filter
          (fun row => decide (row.url ≠ finishedRecord.url)) =
        tableTwo.filter (fun row => decide (row.url ≠ finishedRecord.url)) ∧
      ((update true tableTwo finishedRecord).2.map Row.url).Nodup :=
  ⟨by decide, by decide, update_insert_or_replace true tableTwo finishedRecord (by decide) (by decide)⟩

/-- C8. Lookup miss: when no row has the key `u`, `updateState u s` returns
false and the table afterwards is the table before, whether or not the
statements execute. -/
theorem updateState_miss (selectOk writeOk : Bool) (now : String) (t : Table) (u : String)
    (s : DownloadState) (hmiss : ∀ row ∈ t, row.url ≠ u) :
    updateState selectOk writeOk now t u s = (false, t) := by
  cases selectOk with
  | false => simp [updateState]
  | true =>
    simp only [updateState, not_true_eq_false, if_false]
    exact updateStateLoop_miss writeOk now t u s t hmiss

theorem updateState_miss_witness :
    (∀ row ∈ tableTwo, row.url ≠ "missing-url") ∧
      updateState true true "2021-03-01" tableTwo "missing-url" FINISHED = (false, tableTwo) :=
  ⟨by decide, updateState_miss true true "2021-03-01" tableTwo "missing-url" FINISHED (by decide)⟩

/-- C9. `updateState u s` returns true only if the scan ran, a row with key `u`
existed and the write succeeded; and whenever it returns true, the table
afterwards has exactly one row under `u`, and in its stored map the state entry
is the code `s` and the url entry is the string `u` (so `state()` and `url()`
of the stored record are `s` and `u`). -/
theorem updateState_true (selectOk writeOk : Bool) (now : String) (t : Table) (u : String)
    (s : DownloadState) (hok : (updateState selectOk writeOk now t u s).1 = true) :
    (selectOk = true ∧ (∃ row ∈ t, row.url = u) ∧ writeOk = true) ∧
      ∃ m : QVariantMap,
        (updateState selectOk writeOk now t u s).2.filter (fun row => decide (row.url = u)) =
          [⟨u, m⟩] ∧
        m.value TAG_STATE = QVariant.int s ∧ m.value TAG_URL = QVariant.str u ∧
        (DownloadItemInfo.mk m).state = s ∧ (DownloadItemInfo.mk m).url = u := by
  cases selectOk with
  | false => simp [updateState] at hok
  | true =>
    simp only [updateState, not_true_eq_false, if_false] at hok ⊢
    obtain ⟨hw, row, hmem, hkey, htab⟩ := updateStateLoop_true writeOk now t u s t hok
    refine ⟨⟨trivial, ⟨row, hmem, hkey⟩, hw⟩,
      (((DownloadItemInfo.ofMap now row.value).setUrl u).setState s).data, ?_, ?_⟩
    · rw [htab]
      exact filter_key_insertOrReplace t u _
    · obtain ⟨h1, h2, h3, h4⟩ := updated_item_fields now row.value u s
      exact ⟨h2, h1, h4, h3⟩

theorem updateState_true_witness :
    (updateState true true "2021-03-01" tableTwo "u1" FINISHED).1 = true ∧
      ((true = true ∧ (∃ row ∈ tableTwo, row.url = "u1") ∧ true = true) ∧
        ∃ m : QVariantMap,
          (updateState true true "2021-03-01" tableTwo "u1" FINISHED).2.filter
              (fun row => decide (row.url = "u1")) = [⟨"u1", m⟩] ∧
          m.value TAG_STATE = QVariant.int FINISHED ∧ m.value TAG_URL = QVariant.str "u1" ∧
          (DownloadItemInfo.mk m).state = FINISHED ∧ (DownloadItemInfo.mk m).url = "u1") :=
  ⟨by decide, updateState_true true true "2021-03-01" tableTwo "u1" FINISHED (by decide)⟩

/-- C10. `r1 == r2` holds exactly when the urls of the two records are equal
strings: a record compares equal to itself with every other field reset, and
two records compare unequal exactly when their urls differ. -/
theorem opEq_iff_url_eq (r1 r2 : DownloadItemInfo) (p : String) (sz : Int) (st : DownloadState)
    (ts : String) :
    (r1.opEq r2 = true ↔ r1.url = r2.url) ∧
      r1.opEq ((((r1.setPath p).setSize sz).setState st).setTimeStamp ts) = true ∧
      (r1.opEq r2 = false ↔ r1.url ≠ r2.url) := by
  refine ⟨DownloadItemInfo.opEq_iff r1 r2, ?_, ?_⟩
  · simp [DownloadItemInfo.opEq, DownloadItemInfo.url, DownloadItemInfo.setPath,
      DownloadItemInfo.setSize, DownloadItemInfo.setState, DownloadItemInfo.setTimeStamp,
      value_insert, TAG_URL, TAG_PATH, TAG_SIZE, TAG_STATE, TAG_TIMESTAMP]
  · simp [DownloadItemInfo.opEq]

/-! ## Construction, accessors, the connection -/

/-- C11. Construction: for every attribute map `vm`, also one that carries a
state or a timestamp entry, the record constructed from `vm` has
`state() = STATE_INVALID` and `timeStamp()` the clock reading formatted at the
construction, and its `url()`, `path()` and `size()` are what `vm` holds under
those keys. -/
theorem constructor_fields (now : String) (vm : QVariantMap) :
    (DownloadItemInfo.ofMap now vm).state = STATE_INVALID ∧
      (DownloadItemInfo.ofMap now vm).timeStamp = now ∧
      (DownloadItemInfo.ofMap now vm).url = (vm.value TAG_URL).toString ∧
      (DownloadItemInfo.ofMap now vm).path = (vm.value TAG_PATH).toString ∧
      (DownloadItemInfo.ofMap now vm).size = (vm.value TAG_SIZE).toInt ∧
      (DownloadItemInfo.ofMap now (recordOf "u" "/p" 7 FINISHED "2020-01-01").data).state =
        STATE_INVALID ∧
      (DownloadItemInfo.ofMap now (recordOf "u" "/p" 7 FINISHED "2020-01-01").data).timeStamp =
        now :=
  ⟨DownloadItemInfo.state_ofMap now vm, DownloadItemInfo.timeStamp_ofMap now vm,
    DownloadItemInfo.url_ofMap now vm, DownloadItemInfo.path_ofMap now vm,
    DownloadItemInfo.size_ofMap now vm, DownloadItemInfo.state_ofMap now _,
    DownloadItemInfo.timeStamp_ofMap now _⟩

/-- C12. Accessors: for each of the five fields, the getter after the setter
with a value returns that value, and the four other getters return what they
returned before. -/
theorem setter_getter_frame (r : DownloadItemInfo) (u p ts : String) (sz : Int)
    (st : DownloadState) :
    ((r.setUrl u).url = u ∧ (r.setUrl u).path = r.path ∧ (r.setUrl u).size = r.size ∧
        (r.setUrl u).state = r.state ∧ (r.setUrl u).timeStamp = r.timeStamp) ∧
      ((r.setPath p).path = p ∧ (r.setPath p).url = r.url ∧ (r.setPath p).size = r.size ∧
        (r.setPath p).state = r.state ∧ (r.setPath p).timeStamp = r.timeStamp) ∧
      ((r.setSize sz).size = sz ∧ (r.setSize sz).url = r.url ∧ (r.setSize sz).path = r.path ∧
        (r.setSize sz).state = r.state ∧ (r.setSize sz).timeStamp = r.timeStamp) ∧
      ((r.setState st).state = st ∧ (r.setState st).url = r.url ∧
        (r.setState st).path = r.path ∧ (r.setState st).size = r.size ∧
        (r.setState st).timeStamp = r.timeStamp) ∧
      ((r.setTimeStamp ts).timeStamp = ts ∧ (r.setTimeStamp ts).url = r.url ∧
        (r.setTimeStamp ts).path = r.path ∧ (r.setTimeStamp ts).size = r.size ∧
        (r.setTimeStamp ts).state = r.state) := by
  simp [DownloadItemInfo.url, DownloadItemInfo.path, DownloadItemInfo.size,
    DownloadItemInfo.state, DownloadItemInfo.timeStamp, DownloadItemInfo.setUrl,
    DownloadItemInfo.setPath, DownloadItemInfo.setSize, DownloadItemInfo.setState,
    DownloadItemInfo.setTimeStamp, value_insert, TAG_URL, TAG_PATH, TAG_SIZE, TAG_STATE,
    TAG_TIMESTAMP, QVariant.toString, QVariant.toInt]

/-- C13, as stated, fails. A registry whose `open()` failed at construction has
a connection that is not open, and its `close()` returns true: the handle
exists, and `close()` tests the handle, not whether it is open. -/
theorem close_after_failed_open_counterexample :
    (DownloadDB.open false "/home" ⟨"download.db", none, []⟩).1 = false ∧
      (DownloadDB.create false "/home" "download.db" []).database_ =
        some ⟨"download.db", "/home/download.db", false⟩ ∧
      (DownloadDB.create false "/home" "download.db" []).close.1 = true := by
  decide

/-- C13, amended. `close()` returns true exactly when the registry holds a
connection handle, which `open()` leaves in place whether or not the connection
opened; it then holds none. On a registry that holds none, as after a
`close()`, it returns false and changes nothing: a second consecutive `close()`
returns false and the registry stays as the first left it. -/
theorem close_returns_handle_held (d : DownloadDB) (openOk : Bool) (home : String) :
    d.close.1 = d.database_.isSome ∧ d.close.2.database_ = none ∧
      d.close.2.close = (false, d.close.2) ∧
      (DownloadDB.open openOk home d).2.database_.isSome = true ∧
      (DownloadDB.open openOk home d).2.close.1 = true := by
  have hopen : (DownloadDB.open openOk home d).2.database_.isSome = true := by
    simp only [DownloadDB.open]
    split_ifs <;> rfl
  refine ⟨?_, ?_, ?_, hopen, ?_⟩
  · cases h : d.database_ <;> simp [DownloadDB.close, h]
  · cases h : d.database_ <;> simp [DownloadDB.close, h]
  · cases h : d.database_ <;> simp [DownloadDB.close, h]
  · obtain ⟨db, hdb⟩ := Option.isSome_iff_exists.1 hopen
    simp [DownloadDB.close, hdb]

/-- C19. When the select does not execute, `pendingList` returns the empty
list for every external list, `force_all` and `sort`: the records of the
external list are not returned either. -/
theorem pendingList_scan_failure (qSort : QSort) (clock : Nat → String) (t : Table)
    (input : DownloadInfoList) (force_all sort : Bool) :
    pendingList qSort false clock t input force_all sort = [] ∧
      pendingList qSort false clock tableTwo externalTwo force_all sort = [] := by
  simp [pendingList]

/-! ## The merge against its reference, and the sort -/

theorem mergeInput_append (xs ys : DownloadInfoList) :
    ∀ (acc : DownloadInfoList), mergeInput (xs ++ ys) acc = mergeInput ys (mergeInput xs acc) := by
  induction xs with
  | nil => intro acc; rfl
  | cons a rest ih =>
    intro acc
    show mergeInput (rest ++ ys) _ = mergeInput ys (mergeInput rest _)
    exact ih _

theorem mergeInput_eq_dedupByUrlFrom (xs : DownloadInfoList) :
    ∀ (acc : DownloadInfoList) (seen : List String),
      (∀ u, u ∈ seen ↔ u ∈ acc.map DownloadItemInfo.url) →
      mergeInput xs acc = acc ++ dedupByUrlFrom seen xs := by
  induction xs with
  | nil => intro acc seen _; simp [mergeInput, dedupByUrlFrom]
  | cons a rest ih =>
    intro acc seen hseen
    by_cases hc : listContains acc a = true
    · have hmem : a.url ∈ seen := (hseen a.url).2 ((listContains_iff_mem_urls acc a).1 hc)
      rw [mergeInput_cons_seen a rest acc hc, ih acc seen hseen]
      simp [dedupByUrlFrom, hmem]
    · have hmem : ¬ a.url ∈ seen := fun h =>
        hc ((listContains_iff_mem_urls acc a).2 ((hseen a.url).1 h))
      have hseen' : ∀ u, u ∈ a.url :: seen ↔ u ∈ (acc ++ [a]).map DownloadItemInfo.url := by
        intro u
        simp [hseen u, or_comm]
      rw [mergeInput_cons_new a rest acc hc, ih (acc ++ [a]) (a.url :: seen) hseen']
      simp [dedupByUrlFrom, hmem]

/-- The filter on `FINISHED` keeps every record read from the rows. -/
theorem filter_finished_readRows (clock : Nat → String) (t : Table) (force_all : Bool) :
    (readRows clock 0 t).filter (fun x => decide (x.state ≠ FINISHED) || force_all) =
      readRows clock 0 t := by
  rw [List.filter_eq_self]
  intro x hx
  obtain ⟨j, row, _, hrow⟩ := mem_readRows clock t 0 x hx
  simp [hrow, DownloadItemInfo.state_ofMap_ne_finished]

/-- The shape of the merge: when the scan runs, the result of `pendingList`
without sort is the first-occurrence-wins deduplication by url of the records
the scan constructs, in scan order, followed by the external list. -/
theorem pendingList_eq_dedup_of_read (qSort : QSort) (clock : Nat → String) (t : Table)
    (input : DownloadInfoList) (force_all : Bool) :
    pendingList qSort true clock t input force_all false =
      dedupByUrl (readRows clock 0 t ++ input) := by
  rw [pendingList_unsorted, ← mergeInput_append, dedupByUrl,
    mergeInput_eq_dedupByUrlFrom _ [] [] (by simp)]
  rfl

theorem map_url_dedupByUrlFrom (l₁ : DownloadInfoList) :
    ∀ (seen : List String) (l₂ : DownloadInfoList),
      l₁.map DownloadItemInfo.url = l₂.map DownloadItemInfo.url →
      (dedupByUrlFrom seen l₁).map DownloadItemInfo.url =
        (dedupByUrlFrom seen l₂).map DownloadItemInfo.url := by
  induction l₁ with
  | nil =>
    intro seen l₂ h
    cases l₂ with
    | nil => rfl
    | cons b rest => simp at h
  | cons a rest ih =>
    intro seen l₂ h
    cases l₂ with
    | nil => simp at h
    | cons b rest₂ =>
      simp only [List.map_cons, List.cons.injEq] at h
      obtain ⟨hab, hrest⟩ := h
      by_cases hs : a.url ∈ seen
      · have hs' : b.url ∈ seen := hab ▸ hs
        simp only [dedupByUrlFrom, hs, hs', if_true]
        exact ih seen rest₂ hrest
      · have hs' : ¬ b.url ∈ seen := hab ▸ hs
        simp only [dedupByUrlFrom, hs, hs', if_false, List.map_cons, hab]
        rw [ih (b.url :: seen) rest₂ hrest]

/-- Where the code and the reference part: whatever `force_all` is, the urls
the code returns without sort are the urls of the reference with every stored
record included. -/
theorem pendingList_urls_eq_reference_all (qSort : QSort) (clock : Nat → String) (t : Table)
    (input : DownloadInfoList) (force_all : Bool) :
    (pendingList qSort true clock t input force_all false).map DownloadItemInfo.url =
      (mergeReference t input true).map DownloadItemInfo.url := by
  rw [pendingList_eq_dedup_of_read, mergeReference, dedupByUrl, dedupByUrl]
  apply map_url_dedupByUrlFrom
  have hfilter : (storedRecords t).filter
      (fun x => decide (x.state ≠ FINISHED) || true) = storedRecords t := by
    rw [List.filter_eq_self]
    intro x _
    simp
  rw [hfilter, List.map_append, List.map_append, map_url_readRows, storedRecords, List.map_map]
  rfl

/-- C14, on the code: the table stores a finished row under `"u2"` and a row
under way under `"u1"`. With `includeFinished = false` the reference, which
filters the stored records on their stored state, returns the record of `"u1"`
alone, followed by what the external list adds; the code without sort returns
the record of `"u2"` as well, its state read as `STATE_INVALID`. Both keep the
finished record `"u3"` of the external list: the filter is on the stored
records only. -/
theorem pendingList_differs_from_mergeReference :
    tableTwo.map (fun row => (row.url, (DownloadItemInfo.mk row.value).state)) =
        [("u2", FINISHED), ("u1", 0)] ∧
      (mergeReference tableTwo [] false).map (fun x => (x.url, x.state)) = [("u1", 0)] ∧
      (pendingList insertionSort true clockByRow tableTwo [] false false).map
          (fun x => (x.url, x.state)) = [("u2", STATE_INVALID), ("u1", STATE_INVALID)] ∧
      (mergeReference tableTwo externalRepeated false).map (fun x => (x.url, x.state)) =
        [("u1", 0), ("u3", FINISHED)] ∧
      (pendingList insertionSort true clockByRow tableTwo externalRepeated false false).map
          (fun x => (x.url, x.state)) =
        [("u2", STATE_INVALID), ("u1", STATE_INVALID), ("u3", FINISHED)] := by
  decide

theorem nodup_urls_unsorted (clock : Nat → String) (t : Table) (input : DownloadInfoList)
    (force_all : Bool) :
    ((mergeInput input (scanRows clock force_all 0 t [])).map DownloadItemInfo.url).Nodup := by
  rw [scanRows_eq_mergeInput]
  exact nodup_urls_mergeInput _ _ (nodup_urls_mergeInput _ [] List.nodup_nil)

/-- C15. Deduplication: with a `qSort` that meets its contract, no two records
of the result of `pendingList` have the same url, whatever the table stores
(also stored urls that collide or differ from the keys), whatever the external
list (also urls repeated in it) and whatever `force_all` and `sort` are. -/
theorem pendingList_nodup_urls (qSort : QSort) (hq : QSortContract qSort) (selectOk : Bool)
    (clock : Nat → String) (t : Table) (input : DownloadInfoList) (force_all sort : Bool) :
    ((pendingList qSort selectOk clock t input force_all sort).map DownloadItemInfo.url).Nodup := by
  cases selectOk with
  | false => simp [pendingList]
  | true =>
    cases sort with
    | false =>
      simpa [pendingList] using nodup_urls_unsorted clock t input force_all
    | true =>
      have hperm := (hq GreaterByTimestamp greaterByTimestamp_strictWeak
        (mergeInput input (scanRows clock force_all 0 t []))).1
      have hnd := ((hperm.map DownloadItemInfo.url).nodup_iff).2
        (nodup_urls_unsorted clock t input force_all)
      simpa [pendingList] using hnd

theorem pendingList_nodup_urls_witness :
    QSortContract insertionSort ∧
      (pendingList insertionSort true clockByRow tableCollision externalRepeated true true).map
          DownloadItemInfo.url = ["u1", "u3"] ∧
      ((pendingList insertionSort true clockByRow tableCollision externalRepeated true true).map
          DownloadItemInfo.url).Nodup :=
  ⟨insertionSort_contract, by decide,
    pendingList_nodup_urls insertionSort insertionSort_contract true clockByRow tableCollision
      externalRepeated true true⟩

/-- C20. Sorting neither adds nor drops records: with a `qSort` that meets its
contract and the same clock readings, the result of `pendingList` with sort is a
rearrangement of the result without sort: the same records as often, hence the
same length and the same urls. -/
theorem pendingList_sort_perm (qSort : QSort) (hq : QSortContract qSort) (selectOk : Bool)
    (clock : Nat → String) (t : Table) (input : DownloadInfoList) (force_all : Bool) :
    (pendingList qSort selectOk clock t input force_all true).Perm
        (pendingList qSort selectOk clock t input force_all false) ∧
      (pendingList qSort selectOk clock t input force_all true).length =
        (pendingList qSort selectOk clock t input force_all false).length ∧
      ∀ u, u ∈ (pendingList qSort selectOk clock t input force_all true).map DownloadItemInfo.url ↔
        u ∈ (pendingList qSort selectOk clock t input force_all false).map DownloadItemInfo.url := by
  have hperm : (pendingList qSort selectOk clock t input force_all true).Perm
      (pendingList qSort selectOk clock t input force_all false) := by
    cases selectOk with
    | false => simp [pendingList]
    | true =>
      simpa [pendingList] using (hq GreaterByTimestamp greaterByTimestamp_strictWeak
        (mergeInput input (scanRows clock force_all 0 t []))).1
  exact ⟨hperm, hperm.length_eq, fun u => (hperm.map DownloadItemInfo.url).mem_iff⟩

theorem pendingList_sort_perm_witness :
    QSortContract insertionSort ∧
      (pendingList insertionSort true clockByRow tableTwo externalTwo false true).map
          DownloadItemInfo.url = ["u4", "u1", "u2", "u3"] ∧
      (pendingList insertionSort true clockByRow tableTwo externalTwo false false).map
          DownloadItemInfo.url = ["u2", "u1", "u3", "u4"] ∧
      ((pendingList insertionSort true clockByRow tableTwo externalTwo false true).Perm
          (pendingList insertionSort true clockByRow tableTwo externalTwo false false) ∧
        (pendingList insertionSort true clockByRow tableTwo externalTwo false true).length =
          (pendingList insertionSort true clockByRow tableTwo externalTwo false false).length ∧
        ∀ u, u ∈ (pendingList insertionSort true clockByRow tableTwo externalTwo false true).map
              DownloadItemInfo.url ↔
          u ∈ (pendingList insertionSort true clockByRow tableTwo externalTwo false false).map
              DownloadItemInfo.url) :=
  ⟨insertionSort_contract, by decide, by decide,
    pendingList_sort_perm insertionSort insertionSort_contract true clockByRow tableTwo
      externalTwo false⟩

theorem perm_stableInsert (lt : DownloadItemInfo → DownloadItemInfo → Bool) (a : DownloadItemInfo)
    (l : DownloadInfoList) : (stableInsert lt a l).Perm (a :: l) := by
  induction l with
  | nil => exact List.Perm.refl _
  | cons b rest ih =>
    by_cases h : lt b a = true
    · simp only [stableInsert, h, if_true]
      exact (List.Perm.cons b ih).trans (List.Perm.swap a b rest)
    · simp [stableInsert, h]

theorem perm_stableSort (lt : DownloadItemInfo → DownloadItemInfo → Bool)
    (l : DownloadInfoList) : (stableSort lt l).Perm l := by
  induction l with
  | nil => exact List.Perm.refl _
  | cons a rest ih =>
    exact (perm_stableInsert lt a _).trans (List.Perm.cons a ih)

theorem pairwise_stableInsert (lt : DownloadItemInfo → DownloadItemInfo → Bool)
    (hlt : IsStrictWeak lt) (a : DownloadItemInfo) (l : DownloadInfoList)
    (h : l.Pairwise (fun x y => lt y x = false)) :
    (stableInsert lt a l).Pairwise (fun x y => lt y x = false) := by
  obtain ⟨hirr, htrans, hneg⟩ := hlt
  induction l with
  | nil => simp [stableInsert]
  | cons b rest ih =>
    rw [List.pairwise_cons] at h
    by_cases hba : lt b a = true
    · simp only [stableInsert, hba, if_true]
      have hab : lt a b = false := by
        by_contra hc
        have hc' : lt a b = true := by simpa using hc
        have := htrans a b a hc' hba
        rw [hirr a] at this
        exact Bool.false_ne_true this
      refine List.Pairwise.cons ?_ (ih h.2)
      intro y hy
      rcases List.mem_cons.1 ((perm_stableInsert lt a rest).mem_iff.1 hy) with hy | hy
      · rw [hy]; exact hab
      · exact h.1 y hy
    · have hba' : lt b a = false := by simpa using hba
      simp only [stableInsert, hba, if_false]
      refine List.Pairwise.cons ?_ (List.Pairwise.cons h.1 h.2)
      intro y hy
      rcases List.mem_cons.1 hy with hy | hy
      · rw [hy]; exact hba'
      · exact hneg y b a (h.1 y hy) hba'

theorem pairwise_stableSort (lt : DownloadItemInfo → DownloadItemInfo → Bool)
    (hlt : IsStrictWeak lt) (l : DownloadInfoList) :
    (stableSort lt l).Pairwise (fun x y => lt y x = false) := by
  induction l with
  | nil => simp [stableSort]
  | cons a rest ih => exact pairwise_stableInsert lt hlt a _ ih

/-- Two orderings of the same records by a less-than are the same list when no
two distinct records tie. -/
theorem eq_of_perm_of_pairwise (lt : DownloadItemInfo → DownloadItemInfo → Bool)
    (l₁ : DownloadInfoList) :
    ∀ (l₂ : DownloadInfoList), l₁.Perm l₂ →
      l₁.Pairwise (fun x y => lt y x = false) → l₂.Pairwise (fun x y => lt y x = false) →
      (∀ a ∈ l₁, ∀ b ∈ l₁, lt a b = false → lt b a = false → a = b) → l₁ = l₂ := by
  induction l₁ with
  | nil => intro l₂ hp _ _ _; exact hp.nil_eq
  | cons a rest ih =>
    intro l₂ hp h₁ h₂ hties
    cases l₂ with
    | nil => exact absurd hp.length_eq (by simp)
    | cons b rest₂ =>
      rw [List.pairwise_cons] at h₁ h₂
      have hab : a = b := by
        by_contra hne
        have hb : b ∈ rest := by
          rcases List.mem_cons.1 (hp.mem_iff.2 (List.mem_cons_self b rest₂)) with h | h
          · exact absurd h.symm hne
          · exact h
        have ha : a ∈ rest₂ := by
          rcases List.mem_cons.1 (hp.mem_iff.1 (List.mem_cons_self a rest)) with h | h
          · exact absurd h hne
          · exact h
        exact hne (hties a (List.mem_cons_self a rest) b (List.mem_cons_of_mem a hb)
          (h₂.1 a ha) (h₁.1 b hb))
      subst hab
      rw [ih rest₂ (List.Perm.cons_inv hp) h₁.2 h₂.2
        (fun x hx y hy => hties x (List.mem_cons_of_mem a hx) y (List.mem_cons_of_mem a hy))]

/-- C16, as stated, fails. With four rows read at one clock reading, the quick
sort of the library returns the four records, all of one timestamp, in another
order than the scan order the stable sort keeps. And the contract of `qSort`
leaves the order of ties open: the insertion sort meets it and returns two
records of one timestamp in the reverse of their scan order. -/
theorem stable_order_counterexample :
    ((pendingList qSortLibrary true clockSame tableFour [] true true).map
          (fun x => (x.url, x.timeStamp)) =
        [("d", "2021-03-02"), ("c", "2021-03-02"), ("a", "2021-03-02"), ("b", "2021-03-02")] ∧
      (stableSort GreaterByTimestamp
          (pendingList qSortLibrary true clockSame tableFour [] true false)).map
          (fun x => (x.url, x.timeStamp)) =
        [("a", "2021-03-02"), ("b", "2021-03-02"), ("c", "2021-03-02"), ("d", "2021-03-02")]) ∧
      (QSortContract insertionSort ∧
        (pendingList insertionSort true clockSame tableTwo [] true true).map
            DownloadItemInfo.url = ["u1", "u2"] ∧
        (stableSort GreaterByTimestamp
            (pendingList insertionSort true clockSame tableTwo [] true false)).map
            DownloadItemInfo.url = ["u2", "u1"]) :=
  ⟨by decide, insertionSort_contract, by decide, by decide⟩

/-- C16, amended. With a `qSort` that meets its contract, the result of
`pendingList` with sort is a rearrangement of the result without sort, ordered
by timestamp descending; and when no two records of the result without sort
have the same timestamp, it is the stable sort of that result. -/
theorem pendingList_sort_of_unsorted (qSort : QSort) (hq : QSortContract qSort)
    (selectOk : Bool) (clock : Nat → String) (t : Table) (input : DownloadInfoList)
    (force_all : Bool) :
    (pendingList qSort selectOk clock t input force_all true).Perm
        (pendingList qSort selectOk clock t input force_all false) ∧
      List.Chain' (fun a b => b.timeStamp ≤ a.timeStamp)
        (pendingList qSort selectOk clock t input force_all true) ∧
      ((∀ a ∈ pendingList qSort selectOk clock t input force_all false,
          ∀ b ∈ pendingList qSort selectOk clock t input force_all false,
            a.timeStamp = b.timeStamp → a = b) →
        pendingList qSort selectOk clock t input force_all true =
          stableSort GreaterByTimestamp
            (pendingList qSort selectOk clock t input force_all false)) := by
  cases selectOk with
  | false => simp [pendingList, stableSort]
  | true =>
    obtain ⟨hperm, hsorted⟩ := hq GreaterByTimestamp greaterByTimestamp_strictWeak
      (mergeInput input (scanRows clock force_all 0 t []))
    have htrue : pendingList qSort true clock t input force_all true =
        qSort GreaterByTimestamp (mergeInput input (scanRows clock force_all 0 t [])) := by
      simp [pendingList]
    have hfalse : pendingList qSort true clock t input force_all false =
        mergeInput input (scanRows clock force_all 0 t []) := by
      simp [pendingList]
    rw [htrue, hfalse]
    refine ⟨hperm, ?_, ?_⟩
    · exact (hsorted.imp (fun h => (greaterByTimestamp_false_iff _ _).1 h)).chain'
    · intro hdistinct
      apply eq_of_perm_of_pairwise GreaterByTimestamp _ _
        (hperm.trans (perm_stableSort GreaterByTimestamp _).symm) hsorted
        (pairwise_stableSort GreaterByTimestamp greaterByTimestamp_strictWeak _)
      intro a ha b hb hab hba
      rw [greaterByTimestamp_false_iff] at hab hba
      exact hdistinct a (hperm.mem_iff.1 ha) b (hperm.mem_iff.1 hb) (le_antisymm hab hba)

theorem pendingList_sort_of_unsorted_witness :
    QSortContract insertionSort ∧
      (pendingList insertionSort true clockByRow tableTwo externalTwo true false).map
          DownloadItemInfo.timeStamp = ["2021-03-02", "2021-03-03", "2019-05-05", "2022-05-05"] ∧
      (stableSort GreaterByTimestamp
          (pendingList insertionSort true clockByRow tableTwo externalTwo true false)).map
          DownloadItemInfo.timeStamp = ["2022-05-05", "2021-03-03", "2021-03-02", "2019-05-05"] ∧
      ((pendingList insertionSort true clockByRow tableTwo externalTwo true true).Perm
          (pendingList insertionSort true clockByRow tableTwo externalTwo true false) ∧
        List.Chain' (fun a b => b.timeStamp ≤ a.timeStamp)
          (pendingList insertionSort true clockByRow tableTwo externalTwo true true) ∧
        ((∀ a ∈ pendingList insertionSort true clockByRow tableTwo externalTwo true false,
            ∀ b ∈ pendingList insertionSort true clockByRow tableTwo externalTwo true false,
              a.timeStamp = b.timeStamp → a = b) →
          pendingList insertionSort true clockByRow tableTwo externalTwo true true =
            stableSort GreaterByTimestamp
              (pendingList insertionSort true clockByRow tableTwo externalTwo true false))) :=
  ⟨insertionSort_contract, by decide, by decide,
    pendingList_sort_of_unsorted insertionSort insertionSort_contract true clockByRow tableTwo
      externalTwo true⟩

/-! ## Keys and stored urls, the frame of `updateState` -/

/-- A true result of the loop of `updateState`: the write succeeded, and the
table afterwards is the table with the first row under the key replaced by the
record made from it. -/
theorem updateStateLoop_found (writeOk : Bool) (now : String) (t : Table) (u : String)
    (s : DownloadState) (rows : List Row)
    (h : (updateStateLoop writeOk now t u s rows).1 = true) :
    writeOk = true ∧ ∃ row, rows.find? (fun r => decide (r.url = u)) = some row ∧
      (updateStateLoop writeOk now t u s rows).2 =
        insertOrReplace t u (((DownloadItemInfo.ofMap now row.value).setUrl u).setState s).data := by
  induction rows with
  | nil => simp [updateStateLoop] at h
  | cons row rest ih =>
    by_cases hk : row.url = u
    · simp only [updateStateLoop, hk, if_true] at h ⊢
      cases writeOk with
      | false => simp [update] at h
      | true =>
        refine ⟨rfl, row, by simp [List.find?, hk], ?_⟩
        simp [update, (updated_item_fields now row.value u s).2.2.1]
    · simp only [updateStateLoop, hk, if_false] at h ⊢
      obtain ⟨h1, row', hfind, h3⟩ := ih h
      exact ⟨h1, row', by simpa [List.find?, hk] using hfind, h3⟩

theorem mem_insertOrReplace (t : Table) (u : String) (m : QVariantMap) (row : Row)
    (h : row ∈ insertOrReplace t u m) : row ∈ t ∨ row = ⟨u, m⟩ := by
  simp only [insertOrReplace, List.mem_append, List.mem_filter, List.mem_singleton] at h
  rcases h with h | h
  · exact Or.inl h.1
  · exact Or.inr h

/-- Every row of the table after `updateState` is a row of the table before, or
is the row written, under the key `u` with the stored url `u`. -/
theorem mem_updateState (selectOk writeOk : Bool) (now : String) (t : Table) (u : String)
    (s : DownloadState) (row : Row) (h : row ∈ (updateState selectOk writeOk now t u s).2) :
    row ∈ t ∨ (row.url = u ∧ (DownloadItemInfo.mk row.value).url = u) := by
  by_cases hok : (updateState selectOk writeOk now t u s).1 = true
  · cases selectOk with
    | false => simp [updateState] at hok
    | true =>
      simp only [updateState, not_true_eq_false, if_false] at hok h
      obtain ⟨_, r, _, htab⟩ := updateStateLoop_found writeOk now t u s t hok
      rw [htab] at h
      rcases mem_insertOrReplace t u _ row h with h | h
      · exact Or.inl h
      · refine Or.inr ?_
        rw [h]
        exact ⟨rfl, (updated_item_fields now r.value u s).2.2.1⟩
  · cases selectOk with
    | false =>
      simp only [updateState] at h
      exact Or.inl (by simpa using h)
    | true =>
      simp only [updateState, not_true_eq_false, if_false] at hok h
      have hmiss : ∀ rows : List Row, (updateStateLoop writeOk now t u s rows).1 ≠ true →
          (updateStateLoop writeOk now t u s rows).2 = t := by
        intro rows
        induction rows with
        | nil => intro _; rfl
        | cons r rest ih =>
          intro hne
          by_cases hk : r.url = u
          · simp only [updateStateLoop, hk, if_true] at hne ⊢
            cases writeOk with
            | false => simp [update]
            | true => simp [update] at hne
          · simp only [updateStateLoop, hk, if_false] at hne ⊢
            exact ih hne
      rw [hmiss t hok] at h
      exact Or.inl h

theorem mem_update (writeOk : Bool) (t : Table) (r : DownloadItemInfo) (row : Row)
    (h : row ∈ (update writeOk t r).2) : row ∈ t ∨ row = ⟨r.url, r.data⟩ := by
  cases writeOk with
  | false => exact Or.inl (by simpa [update] using h)
  | true => exact mem_insertOrReplace t r.url r.data row (by simpa [update] using h)

/-- C17. Key and identity: every row of the table after `update r`, and after
`updateState u s`, is a row of the table before or has its key equal to the url
of its stored value; so both keep the invariant that every row has its key
equal to its stored url; and after a successful `updateState u s` every row
under `u` has the stored url `u`, whatever the row under `u` stored before. -/
theorem key_equals_stored_url (selectOk writeOk : Bool) (now : String) (t : Table)
    (r : DownloadItemInfo) (u : String) (s : DownloadState) :
    (∀ row ∈ (update writeOk t r).2,
        row ∈ t ∨ (DownloadItemInfo.mk row.value).url = row.url) ∧
      (∀ row ∈ (updateState selectOk writeOk now t u s).2,
        row ∈ t ∨ (DownloadItemInfo.mk row.value).url = row.url) ∧
      ((∀ row ∈ t, (DownloadItemInfo.mk row.value).url = row.url) →
        ∀ row ∈ (update writeOk t r).2, (DownloadItemInfo.mk row.value).url = row.url) ∧
      ((∀ row ∈ t, (DownloadItemInfo.mk row.value).url = row.url) →
        ∀ row ∈ (updateState selectOk writeOk now t u s).2,
          (DownloadItemInfo.mk row.value).url = row.url) ∧
      ((updateState selectOk writeOk now t u s).1 = true →
        ∀ row ∈ (updateState selectOk writeOk now t u s).2, row.url = u →
          (DownloadItemInfo.mk row.value).url = row.url) ∧
      ((DownloadItemInfo.mk (recordOf "other" "/p" 7 0 "2020-01-01").data).url = "other" ∧
        (updateState true true "2021-03-01" tableMismatch "u" FINISHED).2.map
            (fun row => (row.url, (DownloadItemInfo.mk row.value).url)) = [("u", "u")]) := by
  have hupd : ∀ row ∈ (update writeOk t r).2,
      row ∈ t ∨ (DownloadItemInfo.mk row.value).url = row.url := by
    intro row hrow
    rcases mem_update writeOk t r row hrow with h | h
    · exact Or.inl h
    · exact Or.inr (by rw [h])
  have hst : ∀ row ∈ (updateState selectOk writeOk now t u s).2,
      row ∈ t ∨ (DownloadItemInfo.mk row.value).url = row.url := by
    intro row hrow
    rcases mem_updateState selectOk writeOk now t u s row hrow with h | h
    · exact Or.inl h
    · exact Or.inr (h.2.trans h.1.symm)
  refine ⟨hupd, hst, ?_, ?_, ?_, by decide⟩
  · intro hinv row hrow
    rcases hupd row hrow with h | h
    · exact hinv row h
    · exact h
  · intro hinv row hrow
    rcases hst row hrow with h | h
    · exact hinv row h
    · exact h
  · intro hok row hrow hkey
    cases selectOk with
    | false => simp [updateState] at hok
    | true =>
      simp only [updateState, not_true_eq_false, if_false] at hok hrow
      obtain ⟨_, r', _, htab⟩ := updateStateLoop_found writeOk now t u s t hok
      have hfilter := filter_key_insertOrReplace t u
        (((DownloadItemInfo.ofMap now r'.value).setUrl u).setState s).data
      rw [← htab] at hfilter
      have hmem : row ∈ (updateStateLoop writeOk now t u s t).2.filter
          (fun row => decide (row.url = u)) := by
        rw [List.mem_filter]
        exact ⟨hrow, by simpa using hkey⟩
      rw [hfilter, List.mem_singleton] at hmem
      rw [hmem]
      exact (updated_item_fields now r'.value u s).2.2.1

/-- C18. The frame of `updateState`: after `updateState u s` returns true, the
rows under the other keys are the same, in the same order, and the one row
under `u` stores the map of the row that was under `u` with three entries
written: its path and size entries, and every entry other than url, state and
timestamp, are the stored ones, and its timestamp entry is the clock reading
at the call, not the timestamp stored before. -/
theorem updateState_frame (selectOk writeOk : Bool) (now : String) (t : Table) (u : String)
    (s : DownloadState) (hok : (updateState selectOk writeOk now t u s).1 = true) :
    (updateState selectOk writeOk now t u s).2.filter (fun row => decide (row.url ≠ u)) =
        t.filter (fun row => decide (row.url ≠ u)) ∧
      ∃ (row : Row) (m : QVariantMap),
        t.find? (fun r => decide (r.url = u)) = some row ∧
        (updateState selectOk writeOk now t u s).2.filter (fun row => decide (row.url = u)) =
          [⟨u, m⟩] ∧
        m.value TAG_PATH = row.value.value TAG_PATH ∧
        m.value TAG_SIZE = row.value.value TAG_SIZE ∧
        (∀ k, k ≠ TAG_URL → k ≠ TAG_STATE → k ≠ TAG_TIMESTAMP →
          m.value k = row.value.value k) ∧
        m.value TAG_TIMESTAMP = QVariant.str now := by
  cases selectOk with
  | false => simp [updateState] at hok
  | true =>
    simp only [updateState, not_true_eq_false, if_false] at hok ⊢
    obtain ⟨_, row, hfind, htab⟩ := updateStateLoop_found writeOk now t u s t hok
    have hframe : ∀ k, k ≠ TAG_URL → k ≠ TAG_STATE → k ≠ TAG_TIMESTAMP →
        (((DownloadItemInfo.ofMap now row.value).setUrl u).setState s).data.value k =
          row.value.value k := by
      intro k h1 h2 h3
      simp [DownloadItemInfo.ofMap, DownloadItemInfo.setUrl, DownloadItemInfo.setState,
        DownloadItemInfo.setTimeStamp, value_insert, Ne.symm h1, Ne.symm h2, Ne.symm h3]
    rw [htab]
    refine ⟨filter_other_insertOrReplace t u _, row, _, hfind,
      filter_key_insertOrReplace t u _, hframe _ (by decide) (by decide) (by decide),
      hframe _ (by decide) (by decide) (by decide), hframe, ?_⟩
    simp [DownloadItemInfo.ofMap, DownloadItemInfo.setUrl, DownloadItemInfo.setState,
      DownloadItemInfo.setTimeStamp, value_insert, TAG_URL, TAG_STATE, TAG_TIMESTAMP]

theorem updateState_frame_witness :
    (updateState true true "2021-03-01" tableTwo "u1" FINISHED).1 = true ∧
      (tableTwo.filter (fun row => decide (row.url = "u1"))).map
          (fun row => (row.value.value TAG_PATH, row.value.value TAG_TIMESTAMP)) =
        [(QVariant.str "/b", QVariant.str "2020-01-02")] ∧
      ((updateState true true "2021-03-01" tableTwo "u1" FINISHED).2.filter
          (fun row => decide (row.url = "u1"))).map
          (fun row => (row.value.value TAG_PATH, row.value.value TAG_TIMESTAMP)) =
        [(QVariant.str "/b", QVariant.str "2021-03-01")] ∧
      ((updateState true true "2021-03-01" tableTwo "u1" FINISHED).2.filter
            (fun row => decide (row.url ≠ "u1")) =
          tableTwo.filter (fun row => decide (row.url ≠ "u1")) ∧
        ∃ (row : Row) (m : QVariantMap),
          tableTwo.find? (fun r => decide (r.url = "u1")) = some row ∧
          (updateState true true "2021-03-01" tableTwo "u1" FINISHED).2.filter
              (fun row => decide (row.url = "u1")) = [⟨"u1", m⟩] ∧
          m.value TAG_PATH = row.value.value TAG_PATH ∧
          m.value TAG_SIZE = row.value.value TAG_SIZE ∧
          (∀ k, k ≠ TAG_URL → k ≠ TAG_STATE → k ≠ TAG_TIMESTAMP →
            m.value k = row.value.value k) ∧
          m.value TAG_TIMESTAMP = QVariant.str "2021-03-01") :=
  ⟨by decide, by decide, by decide,
    updateState_frame true true "2021-03-01" tableTwo "u1" FINISHED (by decide)⟩

end cms
